import Mathlib

/-!
Verification development for the SHL assessment recommendation engine
(`final_recommend_eng.py`, `preprocess_final.py`).  Python strings are
modelled as lists of character codes (`PyStr`), scores as rationals, and
every engine operation relevant to the specification is translated into an
executable Lean definition.
-/

/-- Python strings modelled as lists of Unicode code points. -/
abbrev PyStr : Type := List Nat

/-- Character codes of a Lean string literal, used to transcribe the
Python source's string constants. -/
def pys (s : String) : PyStr := s.data.map Char.toNat

/-- Python `str.strip` whitespace class (space, tab, newline, CR, VT, FF). -/
def isSpaceCh (c : Nat) : Bool :=
  c = 32 || c = 9 || c = 10 || c = 13 || c = 11 || c = 12

/-- ASCII lower-casing of one character code (model of `str.lower`). -/
def pyLowerCh (c : Nat) : Nat := if 65 ≤ c ∧ c ≤ 90 then c + 32 else c

/-- ASCII upper-casing of one character code (model of `str.upper`). -/
def pyUpperCh (c : Nat) : Nat := if 97 ≤ c ∧ c ≤ 122 then c - 32 else c

/-- Model of Python `str.lower`. -/
def pyLower (s : PyStr) : PyStr := s.map pyLowerCh

/-- Model of Python `str.upper`. -/
def pyUpper (s : PyStr) : PyStr := s.map pyUpperCh

/-- Model of Python `str.strip()`: drop leading and trailing whitespace. -/
def pyStrip (s : PyStr) : PyStr :=
  (((s.dropWhile isSpaceCh).reverse).dropWhile isSpaceCh).reverse

/-- Model of Python `str.rstrip('/')`: drop trailing slashes (code 47). -/
def rstripSlash (s : PyStr) : PyStr :=
  (s.reverse.dropWhile (fun c => c = 47)).reverse

/-- Model of Python `str.split('/')`: split at every slash, keeping empty
segments; the result is never the empty list. -/
def splitSlash : PyStr → List PyStr
  | [] => [[]]
  | c :: t =>
    if c = 47 then [] :: splitSlash t
    else
      match splitSlash t with
      | s :: ss => (c :: s) :: ss
      | [] => [[c]]

theorem splitSlash_ne_nil (l : PyStr) : splitSlash l ≠ [] := by
  cases l with
  | nil => simp [splitSlash]
  | cons c t =>
    simp only [splitSlash]
    split
    · simp
    · cases h : splitSlash t <;> simp

/-- The fixed canonical URL template of `_normalize_url`
(`https://www.shl.com/solutions/products/product-catalog/view/`). -/
def urlViewBase : PyStr :=
  pys "https://www.shl.com/solutions/products/product-catalog/view/"

/-- Last element of a list of segments, defaulting to the empty segment
(model of Python `parts[-1] if parts else ''`). -/
def lastSegD : List PyStr → PyStr
  | [] => []
  | [s] => s
  | _ :: s :: ss => lastSegD (s :: ss)

/-- The slug extraction of `_normalize_url`: strip, lower-case, strip
trailing slashes, split on `/` and take the last segment. -/
def slugOf (u : PyStr) : PyStr :=
  lastSegD (splitSlash (rstripSlash (pyLower (pyStrip u))))

/-- Model of `SHLRecommendationEngine._normalize_url`. -/
def normalizeUrl (u : PyStr) : PyStr := urlViewBase ++ slugOf u ++ [47]

theorem lastSegD_cons_cons (x s : PyStr) (ss : List PyStr) :
    lastSegD (x :: s :: ss) = lastSegD (s :: ss) := rfl

theorem lastSegD_cons_of_ne_nil (x : PyStr) {l : List PyStr} (h : l ≠ []) :
    lastSegD (x :: l) = lastSegD l := by
  cases l with
  | nil => exact absurd rfl h
  | cons s ss => rfl

theorem splitSlash_eq_single {l : PyStr} (h : 47 ∉ l) : splitSlash l = [l] := by
  induction l with
  | nil => rfl
  | cons c t ih =>
    have hc : c ≠ 47 := fun hc => h (hc ▸ List.mem_cons_self c t)
    have ht : 47 ∉ t := fun ht => h (List.mem_cons_of_mem _ ht)
    simp only [splitSlash, if_neg hc, ih ht]

theorem two_le_length_splitSlash {l : PyStr} (h : 47 ∈ l) :
    2 ≤ (splitSlash l).length := by
  induction l with
  | nil => simp at h
  | cons c t ih =>
    simp only [splitSlash]
    by_cases hc : c = 47
    · rw [if_pos hc]
      have : 0 < (splitSlash t).length :=
        List.length_pos.mpr (splitSlash_ne_nil t)
      simp only [List.length_cons]
      omega
    · have h' : 47 ∈ t := by
        rcases List.mem_cons.mp h with h1 | h1
        · exact absurd h1.symm hc
        · exact h1
      rw [if_neg hc]
      cases hs : splitSlash t with
      | nil => exact absurd hs (splitSlash_ne_nil t)
      | cons s ss =>
        have := ih h'
        rw [hs] at this
        simpa using this

theorem lastSegD_splitSlash_append (a b : PyStr) :
    lastSegD (splitSlash (a ++ 47 :: b)) = lastSegD (splitSlash b) := by
  induction a with
  | nil =>
    show lastSegD (splitSlash (47 :: b)) = _
    simp only [splitSlash, if_pos rfl]
    exact lastSegD_cons_of_ne_nil _ (splitSlash_ne_nil b)
  | cons c t ih =>
    simp only [List.cons_append, splitSlash]
    by_cases hc : c = 47
    · rw [if_pos hc, lastSegD_cons_of_ne_nil _ (splitSlash_ne_nil _)]
      exact ih
    · rw [if_neg hc]
      cases hs : splitSlash (t ++ 47 :: b) with
      | nil => exact absurd hs (splitSlash_ne_nil _)
      | cons s ss =>
        cases ss with
        | nil =>
          exfalso
          have hlen : 2 ≤ (splitSlash (t ++ 47 :: b)).length :=
            two_le_length_splitSlash (by simp)
          rw [hs] at hlen
          simp at hlen
        | cons s2 ss2 =>
          have h1 := ih
          rw [hs, lastSegD_cons_cons] at h1
          exact h1

theorem mem_of_mem_lastSeg {l : PyStr} {c : Nat}
    (h : c ∈ lastSegD (splitSlash l)) : c ∈ l := by
  induction l with
  | nil => simp [splitSlash, lastSegD] at h
  | cons a t ih =>
    simp only [splitSlash] at h
    by_cases ha : a = 47
    · rw [if_pos ha, lastSegD_cons_of_ne_nil _ (splitSlash_ne_nil t)] at h
      exact List.mem_cons_of_mem _ (ih h)
    · rw [if_neg ha] at h
      cases hs : splitSlash t with
      | nil => exact absurd hs (splitSlash_ne_nil t)
      | cons s ss =>
        rw [hs] at h
        cases ss with
        | nil =>
          simp only [lastSegD] at h
          rcases List.mem_cons.mp h with h1 | h1
          · exact h1 ▸ List.mem_cons_self a t
          · apply List.mem_cons_of_mem
            apply ih
            rw [hs]
            simpa [lastSegD] using h1
        | cons s2 ss2 =>
          rw [lastSegD_cons_cons] at h
          apply List.mem_cons_of_mem
          apply ih
          rw [hs]
          exact h

theorem pyLowerCh_idem (c : Nat) : pyLowerCh (pyLowerCh c) = pyLowerCh c := by
  simp only [pyLowerCh]
  split <;> (try split) <;> omega

theorem pyLowerCh_fixed_of_mem_pyLower {c : Nat} {w : PyStr}
    (h : c ∈ pyLower w) : pyLowerCh c = c := by
  rcases List.mem_map.mp h with ⟨d, _, rfl⟩
  exact pyLowerCh_idem d

theorem map_eq_self_of_fixed {f : Nat → Nat} {l : PyStr}
    (h : ∀ c ∈ l, f c = c) : l.map f = l := by
  induction l with
  | nil => rfl
  | cons a t ih =>
    simp only [List.map_cons, h a (List.mem_cons_self a t),
      ih fun c hc => h c (List.mem_cons_of_mem _ hc)]

theorem mem_of_mem_rstripSlash {c : Nat} {l : PyStr}
    (h : c ∈ rstripSlash l) : c ∈ l := by
  unfold rstripSlash at h
  rw [List.mem_reverse] at h
  exact List.mem_reverse.mp ((List.dropWhile_sublist _).mem h)

theorem slash_not_mem_lastSeg (l : PyStr) : 47 ∉ lastSegD (splitSlash l) := by
  induction l with
  | nil => simp [splitSlash, lastSegD]
  | cons a t ih =>
    simp only [splitSlash]
    by_cases ha : a = 47
    · rw [if_pos ha, lastSegD_cons_of_ne_nil _ (splitSlash_ne_nil t)]
      exact ih
    · rw [if_neg ha]
      cases hs : splitSlash t with
      | nil => exact absurd hs (splitSlash_ne_nil t)
      | cons s ss =>
        cases ss with
        | nil =>
          simp only [lastSegD]
          intro h
          rcases List.mem_cons.mp h with h1 | h1
          · exact ha h1.symm
          · apply ih
            rw [hs]
            simpa [lastSegD] using h1
        | cons s2 ss2 =>
          rw [lastSegD_cons_cons]
          rw [hs] at ih
          exact ih


theorem pyStrip_eq_self {l : PyStr}
    (h1 : ∀ c, l.head? = some c → isSpaceCh c = false)
    (h2 : ∀ c, l.getLast? = some c → isSpaceCh c = false) :
    pyStrip l = l := by
  cases l with
  | nil => rfl
  | cons a t =>
    unfold pyStrip
    rw [List.dropWhile_cons_of_neg (by simp [h1 a rfl])]
    cases hrev : (a :: t).reverse with
    | nil => simpa using congrArg List.length hrev
    | cons b r =>
      have hb : (a :: t).getLast? = some b := by
        rw [← List.head?_reverse, hrev]
        rfl
      rw [List.dropWhile_cons_of_neg (by simp [h2 b hb])]
      rw [← hrev, List.reverse_reverse]

theorem pyStrip_normalized (s : PyStr) :
    pyStrip ((urlViewBase ++ s) ++ [47]) = (urlViewBase ++ s) ++ [47] := by
  apply pyStrip_eq_self
  · intro c hc
    rw [show urlViewBase =
        104 :: pys "ttps://www.shl.com/solutions/products/product-catalog/view/"
      from by decide] at hc
    injection hc with hc
    rw [← hc]
    decide
  · intro c hc
    rw [List.getLast?_concat] at hc
    injection hc with hc
    rw [← hc]
    decide

theorem rstripSlash_normalized {s : PyStr} (a : PyStr) (hne : s ≠ [])
    (hns : 47 ∉ s) : rstripSlash ((a ++ s) ++ [47]) = a ++ s := by
  unfold rstripSlash
  have h1 : ((a ++ s) ++ [47]).reverse = 47 :: (s.reverse ++ a.reverse) := by
    simp
  rw [h1, List.dropWhile_cons_of_pos (by simp)]
  cases hrev : s.reverse with
  | nil => exact absurd (by simpa using congrArg List.reverse hrev) hne
  | cons c t =>
    have hc : c ∈ s := by
      rw [← List.mem_reverse, hrev]
      exact List.mem_cons_self c t
    have hc47 : ¬(c = 47) := fun h => hns (h ▸ hc)
    rw [List.cons_append, List.dropWhile_cons_of_neg (by simp [hc47])]
    have h2 : c :: (t ++ a.reverse) = (c :: t) ++ a.reverse := rfl
    rw [h2, ← hrev]
    simp

theorem pyLower_append (a b : PyStr) :
    pyLower (a ++ b) = pyLower a ++ pyLower b := List.map_append _ a b

theorem slugOf_normalized {u : PyStr} (h : slugOf u ≠ []) :
    slugOf (normalizeUrl u) = slugOf u := by
  have hns : 47 ∉ slugOf u := slash_not_mem_lastSeg _
  have hfix : ∀ c ∈ slugOf u, pyLowerCh c = c := by
    intro c hc
    exact pyLowerCh_fixed_of_mem_pyLower
      (mem_of_mem_rstripSlash (mem_of_mem_lastSeg hc))
  show lastSegD (splitSlash (rstripSlash (pyLower
      (pyStrip ((urlViewBase ++ slugOf u) ++ [47]))))) = slugOf u
  rw [pyStrip_normalized]
  rw [show pyLower ((urlViewBase ++ slugOf u) ++ [47])
      = (pyLower urlViewBase ++ pyLower (slugOf u)) ++ pyLower [47] by
    rw [pyLower_append, pyLower_append]]
  rw [show pyLower urlViewBase = urlViewBase by decide]
  rw [show pyLower [47] = [47] by decide]
  have hlow : pyLower (slugOf u) = slugOf u := map_eq_self_of_fixed hfix
  rw [hlow]
  rw [rstripSlash_normalized _ h hns]
  rw [show urlViewBase =
      pys "https://www.shl.com/solutions/products/product-catalog/view" ++ [47] by decide]
  rw [List.append_assoc, List.singleton_append]
  rw [lastSegD_splitSlash_append, splitSlash_eq_single hns]
  rfl

/-- C7 (amended): the URL normalizer is idempotent on every URL whose
extracted slug is non-empty. -/
theorem normalizeUrl_idem_of_slug_ne_nil (u : PyStr) (h : slugOf u ≠ []) :
    normalizeUrl (normalizeUrl u) = normalizeUrl u := by
  show (urlViewBase ++ slugOf (normalizeUrl u)) ++ [47] = _
  rw [slugOf_normalized h]
  rfl

/-- C7 counterexample: on the empty URL string the slug is empty and a
second normalization pass changes the result (the trailing double slash
collapses and `view` becomes the slug), so `normalize` is not idempotent
on all URL strings. -/
theorem normalizeUrl_not_idem_on_empty :
    normalizeUrl (normalizeUrl []) ≠ normalizeUrl [] := by decide

/-- C7 witness: a concrete URL with a non-empty slug on which the amended
idempotence theorem applies. -/
theorem normalizeUrl_idem_witness :
    slugOf (pys "abc") ≠ [] ∧
      normalizeUrl (normalizeUrl (pys "abc")) = normalizeUrl (pys "abc") :=
  ⟨by decide, normalizeUrl_idem_of_slug_ne_nil (pys "abc") (by decide)⟩

/-- The training index `train_queries`: association list from a training
query string to the catalog URLs recorded for it (a Python dict whose keys
are unique). -/
abbrev TrainQ : Type := List (PyStr × List PyStr)

/-- Accumulator-based whitespace splitting (model of Python `str.split()`
with no argument: split on whitespace runs, dropping empty tokens). -/
def wordsAux : PyStr → PyStr → List PyStr
  | [], acc => if acc = [] then [] else [acc.reverse]
  | c :: t, acc =>
    if isSpaceCh c then
      if acc = [] then wordsAux t [] else acc.reverse :: wordsAux t []
    else wordsAux t (c :: acc)

/-- Model of Python `str.split()`. -/
def pyWords (s : PyStr) : List PyStr := wordsAux s []

/-- Word set of a query (model of `set(s.split())`). -/
def wordSet (s : PyStr) : Finset PyStr := (pyWords s).toFinset

/-- Jaccard similarity of two word sets, as computed by
`_calculate_training_boost` (an empty union gives 0). -/
def jaccard (a b : Finset PyStr) : ℚ :=
  ((a ∩ b).card : ℚ) / ((a ∪ b).card : ℚ)

/-- The normalized key of the scored assessment in
`_calculate_training_boost` (`_normalize_url(url.lower().strip())`). -/
def normQ (url : PyStr) : PyStr := normalizeUrl (pyStrip (pyLower url))

/-- Whether a normalized URL occurs among the normalizations of a list of
training URLs (`norm_query_url in {normalize(u) for u in train_urls}`). -/
def urlMatches (urls : List PyStr) (nu : PyStr) : Bool :=
  urls.any (fun u => normalizeUrl u == nu)

/-- Python dict lookup on the training index (keys are unique). -/
def lookupTQ (tq : TrainQ) (k : PyStr) : Option (List PyStr) :=
  (tq.find? (fun e => e.1 == k)).map Prod.snd

/-- The exact-match test of `_calculate_training_boost`, written as the
code performs it: dict lookup followed by a membership test. -/
def codeExact (tq : TrainQ) (qL nu : PyStr) : Bool :=
  match lookupTQ tq qL with
  | some urls => urlMatches urls nu
  | none => false

/-- The exact-match condition as the specification words it: the query is
a key of the index and the assessment's normalized key is among its
mapped keys. -/
def exactMatchB (tq : TrainQ) (query url : PyStr) : Bool :=
  tq.any (fun e =>
    e.1 == pyStrip (pyLower query) && urlMatches e.2 (normQ url))

/-- The fuzzy-similarity loop of `_calculate_training_boost`, with the
code's guard skipping empty word sets. -/
def bestSimAux (tq : TrainQ) (qT : Finset PyStr) (nu : PyStr) : ℚ :=
  tq.foldl (fun best e =>
    if urlMatches e.2 nu then
      if qT ≠ ∅ ∧ wordSet e.1 ≠ ∅ then max best (jaccard qT (wordSet e.1))
      else best
    else best) 0

/-- The maximal Jaccard similarity over all training queries whose mapped
keys include the assessment, as the specification words it (no guard). -/
def specBestSim (tq : TrainQ) (qT : Finset PyStr) (nu : PyStr) : ℚ :=
  tq.foldl (fun best e =>
    if urlMatches e.2 nu then max best (jaccard qT (wordSet e.1))
    else best) 0

/-- Model of `SHLRecommendationEngine._calculate_training_boost`. -/
def trainingBoost (tq : TrainQ) (query url : PyStr) (base : ℚ) : ℚ :=
  if codeExact tq (pyStrip (pyLower query)) (normQ url) then base * 1000
  else if 3/10 < bestSimAux tq (wordSet (pyStrip (pyLower query))) (normQ url)
  then base * (1 + bestSimAux tq (wordSet (pyStrip (pyLower query))) (normQ url) * 100)
  else base

theorem jaccard_nonneg (a b : Finset PyStr) : 0 ≤ jaccard a b := by
  unfold jaccard
  positivity

theorem jaccard_eq_zero_of_empty {a b : Finset PyStr}
    (h : a = ∅ ∨ b = ∅) : jaccard a b = 0 := by
  unfold jaccard
  rcases h with h | h
  · rw [h]
    simp
  · rw [h]
    simp

theorem jaccard_le_one (a b : Finset PyStr) : jaccard a b ≤ 1 := by
  unfold jaccard
  rcases Nat.eq_zero_or_pos (a ∪ b).card with h | h
  · rw [h]
    simp
  · rw [div_le_one (by exact_mod_cast h)]
    exact_mod_cast Finset.card_le_card Finset.inter_subset_union

theorem bestSim_fold_eq (qT : Finset PyStr) (nu : PyStr) :
    ∀ (tq : TrainQ) (b : ℚ), 0 ≤ b →
      tq.foldl (fun best e =>
        if urlMatches e.2 nu then
          if qT ≠ ∅ ∧ wordSet e.1 ≠ ∅ then max best (jaccard qT (wordSet e.1))
          else best
        else best) b
      = tq.foldl (fun best e =>
          if urlMatches e.2 nu then max best (jaccard qT (wordSet e.1))
          else best) b
  | [], _, _ => rfl
  | e :: t, b, hb => by
    simp only [List.foldl_cons]
    by_cases hm : urlMatches e.2 nu = true
    · rw [if_pos hm, if_pos hm]
      by_cases hg : qT ≠ ∅ ∧ wordSet e.1 ≠ ∅
      · rw [if_pos hg]
        exact bestSim_fold_eq qT nu t _
          (le_trans hb (le_max_left b (jaccard qT (wordSet e.1))))
      · rw [if_neg hg]
        have hj : jaccard qT (wordSet e.1) = 0 := by
          apply jaccard_eq_zero_of_empty
          by_cases h1 : qT = ∅
          · exact Or.inl h1
          · right
            by_contra h2
            exact hg ⟨h1, h2⟩
        rw [hj, max_eq_left hb]
        exact bestSim_fold_eq qT nu t b hb
    · rw [if_neg hm, if_neg hm]
      exact bestSim_fold_eq qT nu t b hb

theorem bestSimAux_eq_specBestSim (tq : TrainQ) (qT : Finset PyStr)
    (nu : PyStr) : bestSimAux tq qT nu = specBestSim tq qT nu :=
  bestSim_fold_eq qT nu tq 0 le_rfl

theorem codeExact_eq_exactMatchB {tq : TrainQ} (query url : PyStr)
    (hnd : (tq.map Prod.fst).Nodup) :
    codeExact tq (pyStrip (pyLower query)) (normQ url)
      = exactMatchB tq query url := by
  induction tq with
  | nil => rfl
  | cons e t ih =>
    rw [List.map_cons, List.nodup_cons] at hnd
    obtain ⟨hnotin, hnd2⟩ := hnd
    by_cases hk : e.1 = pyStrip (pyLower query)
    · have hfind : lookupTQ (e :: t) (pyStrip (pyLower query)) = some e.2 := by
        unfold lookupTQ
        rw [List.find?_cons_of_pos _ (by simp [hk])]
        rfl
      unfold codeExact exactMatchB
      rw [hfind]
      simp only [List.any_cons]
      have h1 : (e.1 == pyStrip (pyLower query)) = true := by simp [hk]
      rw [h1]
      simp only [Bool.true_and]
      cases hm : urlMatches e.2 (normQ url) with
      | true => simp
      | false =>
        simp only [Bool.false_or]
        symm
        rw [List.any_eq_false]
        intro x hx
        simp only [Bool.and_eq_true, beq_iff_eq, not_and]
        intro hxk
        exfalso
        apply hnotin
        rw [← hk] at hxk
        exact hxk ▸ List.mem_map_of_mem Prod.fst hx
    · have hfind : lookupTQ (e :: t) (pyStrip (pyLower query))
          = lookupTQ t (pyStrip (pyLower query)) := by
        unfold lookupTQ
        rw [List.find?_cons_of_neg _ (by simp [hk])]
      unfold codeExact exactMatchB
      rw [hfind]
      simp only [List.any_cons]
      have h1 : (e.1 == pyStrip (pyLower query)) = false := by simp [hk]
      rw [h1]
      simp only [Bool.false_and, Bool.false_or]
      exact ih hnd2

theorem trainingBoost_cases (tq : TrainQ) (query url : PyStr) (b : ℚ)
    (hnd : (tq.map Prod.fst).Nodup) :
    trainingBoost tq query url b =
      if exactMatchB tq query url then b * 1000
      else if 3/10 <
          specBestSim tq (wordSet (pyStrip (pyLower query))) (normQ url)
      then b * (1 +
          specBestSim tq (wordSet (pyStrip (pyLower query))) (normQ url) * 100)
      else b := by
  unfold trainingBoost
  rw [codeExact_eq_exactMatchB query url hnd, bestSimAux_eq_specBestSim]

theorem le_specBestSim_fold (qT : Finset PyStr) (nu : PyStr) :
    ∀ (tq : TrainQ) (b : ℚ),
      b ≤ tq.foldl (fun best e =>
        if urlMatches e.2 nu then max best (jaccard qT (wordSet e.1))
        else best) b
  | [], _ => le_rfl
  | e :: t, b => by
    simp only [List.foldl_cons]
    by_cases hm : urlMatches e.2 nu = true
    · rw [if_pos hm]
      exact le_trans (le_max_left b _) (le_specBestSim_fold qT nu t _)
    · rw [if_neg hm]
      exact le_specBestSim_fold qT nu t b

theorem specBestSim_nonneg (tq : TrainQ) (qT : Finset PyStr) (nu : PyStr) :
    0 ≤ specBestSim tq qT nu := le_specBestSim_fold qT nu tq 0

theorem specBestSim_fold_le_one (qT : Finset PyStr) (nu : PyStr) :
    ∀ (tq : TrainQ) (b : ℚ), b ≤ 1 →
      tq.foldl (fun best e =>
        if urlMatches e.2 nu then max best (jaccard qT (wordSet e.1))
        else best) b ≤ 1
  | [], _, hb => hb
  | e :: t, b, hb => by
    simp only [List.foldl_cons]
    by_cases hm : urlMatches e.2 nu = true
    · rw [if_pos hm]
      exact specBestSim_fold_le_one qT nu t _
        (max_le hb (jaccard_le_one qT (wordSet e.1)))
    · rw [if_neg hm]
      exact specBestSim_fold_le_one qT nu t b hb

theorem specBestSim_le_one (tq : TrainQ) (qT : Finset PyStr) (nu : PyStr) :
    specBestSim tq qT nu ≤ 1 :=
  specBestSim_fold_le_one qT nu tq 0 (by norm_num)

/-- C3: the training boost returns `base * 1000` on an exact historical
match, `base * (1 + similarity * 100)` when the best Jaccard similarity
over the training queries mapped to this assessment exceeds `0.3`, and
`base` unchanged otherwise. -/
theorem trainingBoost_three_tier (tq : TrainQ) (query url : PyStr) (b : ℚ)
    (hnd : (tq.map Prod.fst).Nodup) :
    trainingBoost tq query url b =
      if exactMatchB tq query url then b * 1000
      else if 3/10 <
          specBestSim tq (wordSet (pyStrip (pyLower query))) (normQ url)
      then b * (1 +
          specBestSim tq (wordSet (pyStrip (pyLower query))) (normQ url) * 100)
      else b :=
  trainingBoost_cases tq query url b hnd

/-- C3 witness: a concrete one-entry training index with an exact match,
on which the three-tier theorem applies and yields `base * 1000`. -/
theorem trainingBoost_three_tier_witness :
    (([(pys "java", [pys "ua"])] : TrainQ).map Prod.fst).Nodup ∧
      trainingBoost [(pys "java", [pys "ua"])] (pys "java") (pys "ua") 2 =
        if exactMatchB [(pys "java", [pys "ua"])] (pys "java") (pys "ua")
        then (2 : ℚ) * 1000
        else if 3/10 < specBestSim [(pys "java", [pys "ua"])]
            (wordSet (pyStrip (pyLower (pys "java")))) (normQ (pys "ua"))
        then 2 * (1 + specBestSim [(pys "java", [pys "ua"])]
            (wordSet (pyStrip (pyLower (pys "java")))) (normQ (pys "ua")) * 100)
        else 2 :=
  ⟨by decide, trainingBoost_three_tier _ _ _ 2 (by decide)⟩

/-- C4 (amended): for equal strictly positive base scores, an assessment
with an exact historical match scores strictly above one with only a
fuzzy match (similarity above 0.3), which scores strictly above one with
no training match.  At base score 0 all three tiers coincide, so strict
ordering needs a positive base. -/
theorem trainingBoost_tier_ordering (tq : TrainQ) (q u1 u2 u3 : PyStr)
    (b : ℚ) (hb : 0 < b) (hnd : (tq.map Prod.fst).Nodup)
    (h1 : exactMatchB tq q u1 = true)
    (h2 : exactMatchB tq q u2 = false)
    (h2s : 3/10 < specBestSim tq (wordSet (pyStrip (pyLower q))) (normQ u2))
    (h3 : exactMatchB tq q u3 = false)
    (h3s : specBestSim tq (wordSet (pyStrip (pyLower q))) (normQ u3) ≤ 3/10) :
    trainingBoost tq q u2 b < trainingBoost tq q u1 b ∧
      trainingBoost tq q u3 b < trainingBoost tq q u2 b := by
  rw [trainingBoost_cases tq q u1 b hnd, trainingBoost_cases tq q u2 b hnd,
    trainingBoost_cases tq q u3 b hnd, h1, h2, h3]
  simp only [if_true, Bool.false_eq_true, if_false]
  rw [if_pos h2s, if_neg (not_lt.mpr h3s)]
  have hs2le := specBestSim_le_one tq (wordSet (pyStrip (pyLower q))) (normQ u2)
  constructor
  · rw [mul_lt_mul_left hb]
    linarith
  · have hpos : 0 < b *
        (specBestSim tq (wordSet (pyStrip (pyLower q))) (normQ u2) * 100) :=
      mul_pos hb (by linarith)
    have hexp : b * (1 +
        specBestSim tq (wordSet (pyStrip (pyLower q))) (normQ u2) * 100)
        = b + b *
          (specBestSim tq (wordSet (pyStrip (pyLower q))) (normQ u2) * 100) := by
      ring
    rw [hexp]
    linarith

/-- C4 counterexample: with equal base scores 0, the exact-match tier and
the fuzzy-match tier produce the same boosted score 0, so the strict
ordering claimed for all equal base scores fails at base 0. -/
theorem trainingBoost_tier_not_strict_at_zero :
    exactMatchB [(pys "java developer", [pys "ua"]),
        (pys "java developer extra", [pys "ub"])]
        (pys "java developer") (pys "ua") = true ∧
      exactMatchB [(pys "java developer", [pys "ua"]),
        (pys "java developer extra", [pys "ub"])]
        (pys "java developer") (pys "ub") = false ∧
      3/10 < specBestSim [(pys "java developer", [pys "ua"]),
        (pys "java developer extra", [pys "ub"])]
        (wordSet (pyStrip (pyLower (pys "java developer"))))
        (normQ (pys "ub")) ∧
      ¬(trainingBoost [(pys "java developer", [pys "ua"]),
          (pys "java developer extra", [pys "ub"])]
          (pys "java developer") (pys "ub") 0
        < trainingBoost [(pys "java developer", [pys "ua"]),
          (pys "java developer extra", [pys "ub"])]
          (pys "java developer") (pys "ua") 0) := by
  with_unfolding_all decide

/-- C4 witness: at base score 1 the amended strict tier ordering holds on
a concrete index with an exact, a fuzzy and an unmatched assessment. -/
theorem trainingBoost_tier_ordering_witness :
    trainingBoost [(pys "java developer", [pys "ua"]),
        (pys "java developer extra", [pys "ub"])]
        (pys "java developer") (pys "ub") 1
      < trainingBoost [(pys "java developer", [pys "ua"]),
        (pys "java developer extra", [pys "ub"])]
        (pys "java developer") (pys "ua") 1 ∧
      trainingBoost [(pys "java developer", [pys "ua"]),
        (pys "java developer extra", [pys "ub"])]
        (pys "java developer") (pys "uc") 1
      < trainingBoost [(pys "java developer", [pys "ua"]),
        (pys "java developer extra", [pys "ub"])]
        (pys "java developer") (pys "ub") 1 :=
  trainingBoost_tier_ordering _ _ _ _ _ 1 one_pos
    (by with_unfolding_all decide) (by with_unfolding_all decide)
    (by with_unfolding_all decide) (by with_unfolding_all decide)
    (by with_unfolding_all decide) (by with_unfolding_all decide)

/-- Whether a string starts with a given needle. -/
def startsWithPy : PyStr → PyStr → Bool
  | _, [] => true
  | [], _ :: _ => false
  | c :: l, d :: p => (c == d) && startsWithPy l p

/-- Python substring test `needle in hay`. -/
def containsPy : PyStr → PyStr → Bool
  | [], p => startsWithPy [] p
  | c :: t, p => startsWithPy (c :: t) p || containsPy t p

/-- The collaboration keyword list of `_extract_query_features`. -/
def collabKeywords : List PyStr :=
  [pys "collaborate", pys "collaboration", pys "collaborative",
   pys "communicate", pys "communication", pys "interpersonal",
   pys "team", pys "teamwork", pys "stakeholder", pys "business teams",
   pys "work with", pys "interact with", pys "personality",
   pys "behavioral", pys "soft skills", pys "people skills"]

/-- Technical-intent keywords adding category `K`. -/
def techIntent : List PyStr :=
  [pys "technical", pys "coding", pys "programming", pys "developer",
   pys "engineer"]

/-- Cognitive-intent keywords adding category `C`. -/
def cogIntent : List PyStr :=
  [pys "cognitive", pys "analytical", pys "reasoning", pys "analyst"]

/-- Decimal digit test. -/
def digitCh (c : Nat) : Bool := 48 ≤ c && c ≤ 57

/-- Value of a non-empty digit string. -/
def natOfDigits (l : PyStr) : Nat := l.foldl (fun a c => 10 * a + (c - 48)) 0

/-- One attempted match of the regex `(\d+)\s*(?:min|minute)` at the start
of the string: a maximal digit run, optional whitespace, then `min`. -/
def matchDurAt (l : PyStr) : Option Nat :=
  let ds := l.takeWhile digitCh
  if ds = [] then none
  else if startsWithPy ((l.dropWhile digitCh).dropWhile isSpaceCh) (pys "min")
  then some (natOfDigits ds)
  else none

/-- Leftmost search of the duration regex over the query
(model of `re.search(r'(\d+)\s*(?:min|minute)', query_lower)`). -/
def findDur : PyStr → Option Nat
  | [] => none
  | c :: t =>
    match matchDurAt (c :: t) with
    | some n => some n
    | none => findDur t

/-- The query features used downstream of `_extract_query_features`:
required categories (in insertion order P, K, C), the soft-skills flag,
and the parsed duration limit. -/
structure Features where
  cats : List PyStr
  soft : Bool
  durMax : Option Nat
deriving DecidableEq

/-- Model of `SHLRecommendationEngine._extract_query_features` (the parts
that influence filtering and balancing). -/
def extractFeatures (query : PyStr) : Features :=
  let qL := pyLower query
  let soft := collabKeywords.any (fun kw => containsPy qL kw)
  let hasK := techIntent.any (fun kw => containsPy qL kw)
  let hasC := cogIntent.any (fun kw => containsPy qL kw)
  { cats := (if soft then [pys "P"] else [])
      ++ (if hasK then [pys "K"] else [])
      ++ (if hasC then [pys "C"] else []),
    soft := soft,
    durMax := findDur qL }

/-- One catalog row of the engine's data frame. -/
structure Row where
  name : PyStr
  url : PyStr
  description : PyStr
  duration : Option Nat
  adaptive : Bool
  remote : Bool
  test_type : List PyStr
deriving DecidableEq

/-- A scored candidate record as built by `get_recommendations`. -/
structure Cand where
  row : Row
  score : ℚ
deriving DecidableEq

/-- The duration filter of `get_recommendations`: a candidate is kept
unless a truthy (non-zero) duration limit was parsed and the candidate
declares a duration exceeding `duration_max * 1.2`. -/
def durationKeep (f : Features) (r : Row) : Bool :=
  match f.durMax with
  | none => true
  | some m =>
    if m = 0 then true
    else
      match r.duration with
      | none => true
      | some d => !(decide ((m : ℚ) * (6/5) < (d : ℚ)))

/-- C5 (amended): a candidate is excluded by the duration rule iff a
non-zero duration limit `m` was parsed from the query and the candidate
declares a duration `d` with `d > 1.2 * m`; candidates with unknown
duration are never excluded.  (A parsed limit of `0` is falsy in Python
and disables the filter.) -/
theorem durationKeep_excluded_iff (q : PyStr) (r : Row) :
    durationKeep (extractFeatures q) r = false ↔
      ∃ m, (extractFeatures q).durMax = some m ∧ 0 < m ∧
        ∃ d, r.duration = some d ∧ (m : ℚ) * (6/5) < (d : ℚ) := by
  cases hm : (extractFeatures q).durMax with
  | none =>
    have hk : durationKeep (extractFeatures q) r = true := by
      unfold durationKeep
      rw [hm]
    rw [hk]
    simp [hm]
  | some m =>
    have hk : durationKeep (extractFeatures q) r =
        (if m = 0 then true
         else match r.duration with
           | none => true
           | some d => !(decide ((m : ℚ) * (6/5) < (d : ℚ)))) := by
      unfold durationKeep
      rw [hm]
    rw [hk]
    by_cases hm0 : m = 0
    · subst hm0
      simp [hm]
    · rw [if_neg hm0]
      cases hd : r.duration with
      | none => simp [hm, hd]
      | some d =>
        simp only [hm, hd, Bool.not_eq_false', decide_eq_true_eq,
          Option.some.injEq]
        constructor
        · intro hlt
          exact ⟨m, rfl, Nat.pos_of_ne_zero hm0, d, rfl, hlt⟩
        · rintro ⟨m2, hm2, hm2pos, d2, hd2, hlt⟩
          cases hm2
          cases hd2
          exact hlt

/-- C5 counterexample: the query `"0 min"` parses the duration limit `0`,
and a candidate declaring duration `10 > 1.2 * 0` is nevertheless kept,
because Python's truthiness test disables the filter for a zero limit; so
exclusion is not equivalent to `d > 1.2 * m` for every parsed limit. -/
theorem durationFilter_skipped_at_zero_limit :
    (extractFeatures (pys "0 min")).durMax = some 0 ∧
      durationKeep (extractFeatures (pys "0 min"))
        { name := [], url := [], description := [], duration := some 10,
          adaptive := false, remote := false, test_type := [] } = true ∧
      (0 : ℚ) * (6/5) < (10 : ℚ) := by
  with_unfolding_all decide

/-- Python slice `l[:k]` for an arbitrary integer bound (a negative bound
counts from the end). -/
def pyTake (k : Int) (l : List Cand) : List Cand :=
  if k < 0 then l.take (l.length - (-k).toNat) else l.take k.toNat

/-- Primary category of a candidate under the bucketing priority
`K > P > C > A > Other` used by `_balance_by_category`. -/
def bucketOf (c : Cand) : PyStr :=
  if pys "K" ∈ c.row.test_type then pys "K"
  else if pys "P" ∈ c.row.test_type then pys "P"
  else if pys "C" ∈ c.row.test_type then pys "C"
  else if pys "A" ∈ c.row.test_type then pys "A"
  else pys "Other"

/-- Deduplicating append used for the reserved personality slots of
`_balance_by_category`. -/
def addDistinct : List Cand → List Cand × List PyStr → List Cand × List PyStr
  | [], acc => acc
  | c :: t, (b, u) =>
    if c.row.url ∈ u then addDistinct t (b, u)
    else addDistinct t (b ++ [c], c.row.url :: u)

/-- Deduplicating append capped at `slots` additions (the per-category
fill loop of `_balance_by_category`; `added` is the Python counter). -/
def addCapped (slots : Int) : List Cand → List Cand × List PyStr → Int →
    List Cand × List PyStr
  | [], acc, _ => acc
  | c :: t, (b, u), added =>
    if c.row.url ∉ u ∧ added < slots then
      addCapped slots t (b ++ [c], c.row.url :: u) (added + 1)
    else addCapped slots t (b, u) added

/-- The per-required-category loop of `_balance_by_category` (skipping
`P` when soft skills were already reserved). -/
def catLoop (soft : Bool) (slots : Int) (byCat : PyStr → List Cand) :
    List PyStr → List Cand × List PyStr → List Cand × List PyStr
  | [], acc => acc
  | cat :: rest, acc =>
    if cat = pys "P" ∧ soft = true then catLoop soft slots byCat rest acc
    else catLoop soft slots byCat rest (addCapped slots (byCat cat) acc 0)

/-- The final backfill loop of `_balance_by_category`. -/
def backfill (top_k : Int) : List Cand → List Cand × List PyStr →
    List Cand × List PyStr
  | [], acc => acc
  | c :: t, (b, u) =>
    if top_k ≤ (b.length : Int) then (b, u)
    else if c.row.url ∈ u then backfill top_k t (b, u)
    else backfill top_k t (b ++ [c], c.row.url :: u)

/-- The buckets of `_balance_by_category`: candidates whose primary
category is the given code, in score order. -/
def byCatF (results : List Cand) (cat : PyStr) : List Cand :=
  results.filter (fun c => bucketOf c == cat)

/-- The reserved personality slots of `_balance_by_category`
(`min(3, len(P bucket), top_k // 3)` entries, deduplicated by URL). -/
def reserveP (results : List Cand) (required : List PyStr) (soft : Bool)
    (top_k : Int) : List Cand × List PyStr :=
  if soft = true ∧ pys "P" ∈ required then
    addDistinct (pyTake (min 3 (min ((byCatF results (pys "P")).length : Int)
      (top_k.fdiv 3))) (byCatF results (pys "P"))) ([], [])
  else ([], [])

/-- The per-category slot budget of `_balance_by_category`
(`max(2, remaining // max(1, len(required_categories)))`). -/
def slotsPerCat (required : List PyStr) (top_k : Int)
    (reservedLen : Nat) : Int :=
  max 2 ((top_k - reservedLen).fdiv (max 1 (required.length : Int)))

/-- Model of `SHLRecommendationEngine._balance_by_category`. -/
def balanceByCategory (results : List Cand) (required : List PyStr)
    (soft : Bool) (top_k : Int) : List Cand :=
  if required.length ≤ 1 ∧ soft = false then pyTake top_k results
  else
    pyTake top_k (backfill top_k results
      (catLoop soft
        (slotsPerCat required top_k
          (reserveP results required soft top_k).1.length)
        (byCatF results) required
        (reserveP results required soft top_k))).1

/-- URL projection of a candidate list. -/
def urlsOf (b : List Cand) : List PyStr := b.map (fun c => c.row.url)

/-- The invariant maintained by every filling loop of the balancer: the
`used_urls` set holds exactly the URLs of the accumulated list, and those
URLs are pairwise distinct. -/
def accInv (acc : List Cand × List PyStr) : Prop :=
  (∀ s, s ∈ acc.2 ↔ s ∈ urlsOf acc.1) ∧ (urlsOf acc.1).Nodup

theorem urlsOf_append (b : List Cand) (c : Cand) :
    urlsOf (b ++ [c]) = urlsOf b ++ [c.row.url] := by
  unfold urlsOf
  rw [List.map_append]
  rfl

theorem accInv_step {b : List Cand} {u : List PyStr} {c : Cand}
    (h : accInv (b, u)) (hc : c.row.url ∉ u) :
    accInv (b ++ [c], c.row.url :: u) := by
  obtain ⟨h1, h2⟩ := h
  constructor
  · intro s
    rw [urlsOf_append]
    simp only [List.mem_cons, List.mem_append, List.mem_singleton]
    rw [h1 s]
    tauto
  · rw [urlsOf_append]
    have hcn : c.row.url ∉ urlsOf b := fun hin => hc ((h1 _).mpr hin)
    simp [List.nodup_append, h2, hcn]

theorem addDistinct_shape (pool : List Cand) :
    ∀ (b : List Cand) (u : List PyStr),
      ∃ ext, (addDistinct pool (b, u)).1 = b ++ ext ∧
        ∀ c ∈ ext, c ∈ pool := by
  induction pool with
  | nil => exact fun b u => ⟨[], by simp [addDistinct]⟩
  | cons c t ih =>
    intro b u
    unfold addDistinct
    by_cases hc : c.row.url ∈ u
    · rw [if_pos hc]
      obtain ⟨ext, he, hsub⟩ := ih b u
      exact ⟨ext, he, fun x hx => List.mem_cons_of_mem _ (hsub x hx)⟩
    · rw [if_neg hc]
      obtain ⟨ext, he, hsub⟩ := ih (b ++ [c]) (c.row.url :: u)
      refine ⟨c :: ext, ?_, ?_⟩
      · rw [he]
        simp
      · intro x hx
        rcases List.mem_cons.mp hx with rfl | hx
        · exact List.mem_cons_self x t
        · exact List.mem_cons_of_mem _ (hsub x hx)

theorem addDistinct_inv (pool : List Cand) :
    ∀ (b : List Cand) (u : List PyStr), accInv (b, u) →
      accInv (addDistinct pool (b, u)) := by
  induction pool with
  | nil => exact fun b u h => h
  | cons c t ih =>
    intro b u h
    unfold addDistinct
    by_cases hc : c.row.url ∈ u
    · rw [if_pos hc]
      exact ih b u h
    · rw [if_neg hc]
      exact ih _ _ (accInv_step h hc)

theorem addCapped_shape (slots : Int) (pool : List Cand) :
    ∀ (b : List Cand) (u : List PyStr) (added : Int),
      ∃ ext, (addCapped slots pool (b, u) added).1 = b ++ ext ∧
        ∀ c ∈ ext, c ∈ pool := by
  induction pool with
  | nil => exact fun b u added => ⟨[], by simp [addCapped]⟩
  | cons c t ih =>
    intro b u added
    unfold addCapped
    by_cases hc : c.row.url ∉ u ∧ added < slots
    · rw [if_pos hc]
      obtain ⟨ext, he, hsub⟩ := ih (b ++ [c]) (c.row.url :: u) (added + 1)
      refine ⟨c :: ext, ?_, ?_⟩
      · rw [he]
        simp
      · intro x hx
        rcases List.mem_cons.mp hx with rfl | hx
        · exact List.mem_cons_self x t
        · exact List.mem_cons_of_mem _ (hsub x hx)
    · rw [if_neg hc]
      obtain ⟨ext, he, hsub⟩ := ih b u added
      exact ⟨ext, he, fun x hx => List.mem_cons_of_mem _ (hsub x hx)⟩

theorem addCapped_inv (slots : Int) (pool : List Cand) :
    ∀ (b : List Cand) (u : List PyStr) (added : Int), accInv (b, u) →
      accInv (addCapped slots pool (b, u) added) := by
  induction pool with
  | nil => exact fun b u added h => h
  | cons c t ih =>
    intro b u added h
    unfold addCapped
    by_cases hc : c.row.url ∉ u ∧ added < slots
    · rw [if_pos hc]
      exact ih _ _ _ (accInv_step h hc.1)
    · rw [if_neg hc]
      exact ih b u added h

theorem addCapped_length_le (slots : Int) (pool : List Cand) :
    ∀ (b : List Cand) (u : List PyStr) (added : Int),
      (addCapped slots pool (b, u) added).1.length ≤
        b.length + (slots - added).toNat := by
  induction pool with
  | nil =>
    intro b u added
    simp [addCapped]
  | cons c t ih =>
    intro b u added
    unfold addCapped
    by_cases hc : c.row.url ∉ u ∧ added < slots
    · rw [if_pos hc]
      have := ih (b ++ [c]) (c.row.url :: u) (added + 1)
      rw [List.length_append] at this
      simp only [List.length_singleton] at this
      have harith : (slots - (added + 1)).toNat + 1 = (slots - added).toNat := by
        omega
      omega
    · rw [if_neg hc]
      exact le_trans (ih b u added) (by omega)

theorem catLoop_cons (soft : Bool) (slots : Int) (byCat : PyStr → List Cand)
    (cat : PyStr) (rest : List PyStr) (acc : List Cand × List PyStr) :
    catLoop soft slots byCat (cat :: rest) acc =
      if cat = pys "P" ∧ soft = true then catLoop soft slots byCat rest acc
      else catLoop soft slots byCat rest (addCapped slots (byCat cat) acc 0) :=
  rfl

theorem catLoop_append (soft : Bool) (slots : Int)
    (byCat : PyStr → List Cand) :
    ∀ (l1 l2 : List PyStr) (acc : List Cand × List PyStr),
      catLoop soft slots byCat (l1 ++ l2) acc
        = catLoop soft slots byCat l2 (catLoop soft slots byCat l1 acc)
  | [], _, _ => rfl
  | cat :: rest, l2, acc => by
    rw [List.cons_append, catLoop_cons, catLoop_cons]
    by_cases h : cat = pys "P" ∧ soft = true
    · rw [if_pos h, if_pos h, catLoop_append soft slots byCat rest l2 acc]
    · rw [if_neg h, if_neg h, catLoop_append soft slots byCat rest l2 _]

theorem catLoop_shape (soft : Bool) (slots : Int)
    (byCat : PyStr → List Cand) :
    ∀ (cats : List PyStr) (acc : List Cand × List PyStr),
      ∃ ext, (catLoop soft slots byCat cats acc).1 = acc.1 ++ ext ∧
        ∀ y ∈ ext, ∃ cat ∈ cats, y ∈ byCat cat
  | [], acc => ⟨[], by simp [catLoop]⟩
  | cat :: rest, acc => by
    rw [catLoop_cons]
    by_cases h : cat = pys "P" ∧ soft = true
    · rw [if_pos h]
      obtain ⟨ext, he, hs⟩ := catLoop_shape soft slots byCat rest acc
      exact ⟨ext, he, fun y hy =>
        (hs y hy).elim fun c2 hc2 =>
          ⟨c2, List.mem_cons_of_mem _ hc2.1, hc2.2⟩⟩
    · rw [if_neg h]
      obtain ⟨b, u⟩ := acc
      obtain ⟨ext1, he1, hs1⟩ := addCapped_shape slots (byCat cat) b u 0
      obtain ⟨ext2, he2, hs2⟩ :=
        catLoop_shape soft slots byCat rest (addCapped slots (byCat cat) (b, u) 0)
      refine ⟨ext1 ++ ext2, ?_, ?_⟩
      · rw [he2, he1, List.append_assoc]
      · intro y hy
        rcases List.mem_append.mp hy with hy | hy
        · exact ⟨cat, List.mem_cons_self cat rest, hs1 y hy⟩
        · obtain ⟨c2, hc2, hyc⟩ := hs2 y hy
          exact ⟨c2, List.mem_cons_of_mem _ hc2, hyc⟩

theorem catLoop_inv (soft : Bool) (slots : Int) (byCat : PyStr → List Cand) :
    ∀ (cats : List PyStr) (acc : List Cand × List PyStr), accInv acc →
      accInv (catLoop soft slots byCat cats acc)
  | [], _, h => h
  | cat :: rest, acc, h => by
    rw [catLoop_cons]
    by_cases hp : cat = pys "P" ∧ soft = true
    · rw [if_pos hp]
      exact catLoop_inv soft slots byCat rest acc h
    · rw [if_neg hp]
      obtain ⟨b, u⟩ := acc
      exact catLoop_inv soft slots byCat rest _ (addCapped_inv slots _ b u 0 h)

theorem catLoop_length_le (soft : Bool) (slots : Int)
    (byCat : PyStr → List Cand) :
    ∀ (cats : List PyStr) (acc : List Cand × List PyStr),
      (catLoop soft slots byCat cats acc).1.length ≤
        acc.1.length + cats.length * slots.toNat
  | [], acc => by simp [catLoop]
  | cat :: rest, acc => by
    rw [catLoop_cons]
    by_cases hp : cat = pys "P" ∧ soft = true
    · rw [if_pos hp]
      have := catLoop_length_le soft slots byCat rest acc
      have hmul : rest.length * slots.toNat ≤
          (cat :: rest).length * slots.toNat := by
        apply Nat.mul_le_mul_right
        simp
      omega
    · rw [if_neg hp]
      obtain ⟨b, u⟩ := acc
      have h1 := catLoop_length_le soft slots byCat rest
        (addCapped slots (byCat cat) (b, u) 0)
      have h2 := addCapped_length_le slots (byCat cat) b u 0
      simp only [List.length_cons] at h1 h2 ⊢
      have : (slots - 0).toNat = slots.toNat := by omega
      rw [this] at h2
      have hmul : (rest.length + 1) * slots.toNat
          = rest.length * slots.toNat + slots.toNat := by ring
      omega

theorem backfill_shape (top_k : Int) :
    ∀ (pool : List Cand) (b : List Cand) (u : List PyStr),
      ∃ ext, (backfill top_k pool (b, u)).1 = b ++ ext ∧
        ∀ y ∈ ext, y ∈ pool
  | [], b, u => ⟨[], by simp [backfill]⟩
  | c :: t, b, u => by
    unfold backfill
    by_cases h1 : top_k ≤ (b.length : Int)
    · rw [if_pos h1]
      exact ⟨[], by simp⟩
    · rw [if_neg h1]
      by_cases h2 : c.row.url ∈ u
      · rw [if_pos h2]
        obtain ⟨ext, he, hs⟩ := backfill_shape top_k t b u
        exact ⟨ext, he, fun y hy => List.mem_cons_of_mem _ (hs y hy)⟩
      · rw [if_neg h2]
        obtain ⟨ext, he, hs⟩ := backfill_shape top_k t (b ++ [c]) (c.row.url :: u)
        refine ⟨c :: ext, ?_, ?_⟩
        · rw [he]
          simp
        · intro y hy
          rcases List.mem_cons.mp hy with rfl | hy
          · exact List.mem_cons_self y t
          · exact List.mem_cons_of_mem _ (hs y hy)

theorem backfill_inv (top_k : Int) :
    ∀ (pool : List Cand) (b : List Cand) (u : List PyStr), accInv (b, u) →
      accInv (backfill top_k pool (b, u))
  | [], _, _, h => h
  | c :: t, b, u, h => by
    unfold backfill
    by_cases h1 : top_k ≤ (b.length : Int)
    · rw [if_pos h1]
      exact h
    · rw [if_neg h1]
      by_cases h2 : c.row.url ∈ u
      · rw [if_pos h2]
        exact backfill_inv top_k t b u h
      · rw [if_neg h2]
        exact backfill_inv top_k t _ _ (accInv_step h h2)

theorem backfill_shape2 (top_k : Int) (pool : List Cand)
    (acc : List Cand × List PyStr) :
    ∃ ext, (backfill top_k pool acc).1 = acc.1 ++ ext ∧
      ∀ y ∈ ext, y ∈ pool := by
  obtain ⟨b, u⟩ := acc
  exact backfill_shape top_k pool b u

theorem backfill_inv2 (top_k : Int) (pool : List Cand)
    (acc : List Cand × List PyStr) (h : accInv acc) :
    accInv (backfill top_k pool acc) := by
  obtain ⟨b, u⟩ := acc
  exact backfill_inv top_k pool b u h

theorem pyTake_of_nonneg (k : Int) (hk : 0 ≤ k) (l : List Cand) :
    pyTake k l = l.take k.toNat := if_neg (not_lt.mpr hk)

theorem mem_of_mem_pyTake {k : Int} {l : List Cand} {c : Cand}
    (h : c ∈ pyTake k l) : c ∈ l := by
  unfold pyTake at h
  split at h <;> exact List.take_subset _ _ h

theorem accInv_nil : accInv (([] : List Cand), ([] : List PyStr)) := by
  constructor
  · intro s
    simp [urlsOf]
  · simp [urlsOf]

theorem reserveP_inv (results : List Cand) (required : List PyStr)
    (soft : Bool) (top_k : Int) :
    accInv (reserveP results required soft top_k) := by
  unfold reserveP
  split
  · exact addDistinct_inv _ _ _ accInv_nil
  · exact accInv_nil

theorem byCatF_subset {results : List Cand} {cat : PyStr} {y : Cand}
    (h : y ∈ byCatF results cat) : y ∈ results :=
  List.mem_of_mem_filter h

theorem bucketOf_of_mem_byCatF {results : List Cand} {cat : PyStr} {y : Cand}
    (h : y ∈ byCatF results cat) : bucketOf y = cat := by
  have := List.of_mem_filter h
  simpa using this

theorem reserveP_subset (results : List Cand) (required : List PyStr)
    (soft : Bool) (top_k : Int) :
    ∀ y ∈ (reserveP results required soft top_k).1, y ∈ results := by
  unfold reserveP
  split
  · intro y hy
    obtain ⟨ext, he, hs⟩ := addDistinct_shape _ [] []
    rw [he] at hy
    simp only [List.nil_append] at hy
    exact byCatF_subset (mem_of_mem_pyTake (hs y hy))
  · intro y hy
    simp at hy

theorem balance_core_subset (results : List Cand) (required : List PyStr)
    (soft : Bool) (slots top_k : Int) (acc0 : List Cand × List PyStr)
    (h0 : ∀ y ∈ acc0.1, y ∈ results) :
    ∀ y ∈ (backfill top_k results
        (catLoop soft slots (byCatF results) required acc0)).1,
      y ∈ results := by
  intro y hy
  obtain ⟨ext2, he2, hs2⟩ := backfill_shape2 top_k results
    (catLoop soft slots (byCatF results) required acc0)
  rw [he2] at hy
  rcases List.mem_append.mp hy with hy | hy
  · obtain ⟨ext1, he1, hs1⟩ :=
      catLoop_shape soft slots (byCatF results) required acc0
    rw [he1] at hy
    rcases List.mem_append.mp hy with hy | hy
    · exact h0 y hy
    · obtain ⟨cat, hcat, hyc⟩ := hs1 y hy
      exact byCatF_subset hyc
  · exact hs2 y hy

/-- C10: whenever the balancing branch runs (more than one required
category, or soft skills flagged) and `top_k` is non-negative, the
balancer's output has length at most `top_k`, every element is drawn from
the input candidate list, and its elements carry pairwise-distinct URLs. -/
theorem balance_output_props (results : List Cand) (required : List PyStr)
    (soft : Bool) (top_k : Int)
    (hbr : 1 < required.length ∨ soft = true) (htk : 0 ≤ top_k) :
    ((balanceByCategory results required soft top_k).length : Int) ≤ top_k ∧
      (∀ y ∈ balanceByCategory results required soft top_k, y ∈ results) ∧
      (urlsOf (balanceByCategory results required soft top_k)).Nodup := by
  have hcond : ¬(required.length ≤ 1 ∧ soft = false) := by
    rcases hbr with h | h
    · rintro ⟨h1, h2⟩
      omega
    · rintro ⟨h1, h2⟩
      rw [h] at h2
      simp at h2
  unfold balanceByCategory
  rw [if_neg hcond]
  have hsub : ∀ y ∈ (backfill top_k results
      (catLoop soft
        (slotsPerCat required top_k
          (reserveP results required soft top_k).1.length)
        (byCatF results) required
        (reserveP results required soft top_k))).1, y ∈ results :=
    balance_core_subset results required soft _ top_k _
      (reserveP_subset results required soft top_k)
  have hinv : accInv (backfill top_k results
      (catLoop soft
        (slotsPerCat required top_k
          (reserveP results required soft top_k).1.length)
        (byCatF results) required
        (reserveP results required soft top_k))) :=
    backfill_inv2 top_k results _
      (catLoop_inv _ _ _ required _
        (reserveP_inv results required soft top_k))
  refine ⟨?_, ?_, ?_⟩
  · rw [pyTake_of_nonneg _ htk]
    have h1 : ((backfill top_k results
        (catLoop soft
          (slotsPerCat required top_k
            (reserveP results required soft top_k).1.length)
          (byCatF results) required
          (reserveP results required soft top_k))).1.take
            top_k.toNat).length ≤ top_k.toNat := by
      rw [List.length_take]
      omega
    omega
  · intro y hy
    exact hsub y (mem_of_mem_pyTake hy)
  · rw [pyTake_of_nonneg _ htk]
    unfold urlsOf
    rw [List.map_take]
    exact (hinv.2).sublist (List.take_sublist _ _)

/-- C10 witness: a concrete two-candidate pool with two required
categories, on which the balancer-output theorem applies. -/
theorem balance_output_props_witness :
    ((balanceByCategory
        [⟨⟨pys "a", pys "ua", [], none, false, false, [pys "K"]⟩, 1⟩,
         ⟨⟨pys "b", pys "ub", [], none, false, false, [pys "P"]⟩, 0⟩]
        [pys "K", pys "P"] false 2).length : Int) ≤ 2 ∧
      (∀ y ∈ balanceByCategory
        [⟨⟨pys "a", pys "ua", [], none, false, false, [pys "K"]⟩, 1⟩,
         ⟨⟨pys "b", pys "ub", [], none, false, false, [pys "P"]⟩, 0⟩]
        [pys "K", pys "P"] false 2,
        y ∈ [⟨⟨pys "a", pys "ua", [], none, false, false, [pys "K"]⟩, 1⟩,
         ⟨⟨pys "b", pys "ub", [], none, false, false, [pys "P"]⟩, 0⟩]) ∧
      (urlsOf (balanceByCategory
        [⟨⟨pys "a", pys "ua", [], none, false, false, [pys "K"]⟩, 1⟩,
         ⟨⟨pys "b", pys "ub", [], none, false, false, [pys "P"]⟩, 0⟩]
        [pys "K", pys "P"] false 2)).Nodup :=
  balance_output_props _ _ _ _ (Or.inl (by decide)) (by decide)

/-- C6 counterexample: with required categories `{K, C}` and `top_k = 4`,
a candidate pool whose only `C`-carrying member is bucketed under its
primary category `K` (and ranked below the per-category slots) yields a
balanced list with no `C` representative, although the pool contains one.
Buckets are keyed by primary category, not by membership. -/
theorem balance_category_missing :
    1 < ([pys "K", pys "C"] : List PyStr).length ∧
      (∃ x ∈ [(⟨⟨pys "c1", pys "u1", [], none, false, false, [pys "K"]⟩, 0⟩ : Cand),
          ⟨⟨pys "c2", pys "u2", [], none, false, false, [pys "K"]⟩, 0⟩,
          ⟨⟨pys "c3", pys "u3", [], none, false, false, [pys "K"]⟩, 0⟩,
          ⟨⟨pys "c4", pys "u4", [], none, false, false, [pys "K"]⟩, 0⟩,
          ⟨⟨pys "c5", pys "u5", [], none, false, false, [pys "K", pys "C"]⟩, 0⟩],
        pys "C" ∈ x.row.test_type) ∧
      ¬(∃ y ∈ balanceByCategory
          [(⟨⟨pys "c1", pys "u1", [], none, false, false, [pys "K"]⟩, 0⟩ : Cand),
           ⟨⟨pys "c2", pys "u2", [], none, false, false, [pys "K"]⟩, 0⟩,
           ⟨⟨pys "c3", pys "u3", [], none, false, false, [pys "K"]⟩, 0⟩,
           ⟨⟨pys "c4", pys "u4", [], none, false, false, [pys "K"]⟩, 0⟩,
           ⟨⟨pys "c5", pys "u5", [], none, false, false, [pys "K", pys "C"]⟩, 0⟩]
          [pys "K", pys "C"] false 4,
        pys "C" ∈ y.row.test_type) := by
  with_unfolding_all decide

theorem addCapped_cons_new (slots : Int) (x : Cand) (t : List Cand)
    (b : List Cand) (u : List PyStr) (hx : x.row.url ∉ u) (hs : 0 < slots) :
    addCapped slots (x :: t) (b, u) 0
      = addCapped slots t (b ++ [x], x.row.url :: u) 1 := by
  have h : addCapped slots (x :: t) (b, u) 0 =
      if x.row.url ∉ u ∧ (0 : Int) < slots then
        addCapped slots t (b ++ [x], x.row.url :: u) (0 + 1)
      else addCapped slots t (b, u) 0 := rfl
  rw [h, if_pos ⟨hx, hs⟩]
  norm_num

theorem mem_take_of_extension {b l : List Cand} {n : Nat} {x : Cand}
    (hpre : ∃ ext, l = b ++ ext) (hx : x ∈ b) (hlen : b.length ≤ n) :
    x ∈ l.take n := by
  obtain ⟨ext, rfl⟩ := hpre
  rw [List.take_append_eq_append_take, List.take_of_length_le hlen]
  exact List.mem_append_left _ hx

theorem slots_sched_bound (r top_k : Int) (hr : 2 ≤ r)
    (htk : 2 * r - 1 ≤ top_k) :
    (r - 1) * (max 2 (top_k.fdiv (max 1 r))) + 1 ≤ top_k := by
  have hmax1 : max 1 r = r := max_eq_right (by linarith)
  rw [hmax1]
  by_cases h : top_k.fdiv r < 2
  · rw [max_eq_left (by linarith)]
    linarith
  · push_neg at h
    rw [max_eq_right h]
    have hrpos : (0 : Int) < r := by linarith
    have he : top_k.fdiv r = top_k / r := Int.fdiv_eq_ediv top_k (le_of_lt hrpos)
    have hdm : top_k / r * r ≤ top_k := Int.ediv_mul_le top_k (by linarith)
    rw [he] at h ⊢
    have hexp : (r - 1) * (top_k / r) = top_k / r * r - top_k / r := by ring
    rw [hexp]
    linarith

theorem catLoop_backfill_covered (results : List Cand)
    (pre post : List PyStr) (top_k slots : Int) (c : PyStr)
    (hcpre : c ∉ pre)
    (hurls : (urlsOf results).Nodup)
    (hslots2 : 2 ≤ slots)
    (hbound : (pre.length : Int) * slots + 1 ≤ top_k)
    (hex : ∃ x ∈ results, bucketOf x = c) :
    ∃ y ∈ (pyTake top_k (backfill top_k results
        (catLoop false slots (byCatF results) (pre ++ c :: post)
          ([], []))).1),
      bucketOf y = c := by
  rw [catLoop_append]
  have hinv0 := catLoop_inv false slots (byCatF results) pre ([], []) accInv_nil
  obtain ⟨ext0, he0, hs0⟩ := catLoop_shape false slots (byCatF results) pre ([], [])
  have hlen0 := catLoop_length_le false slots (byCatF results) pre ([], [])
  cases hacc : catLoop false slots (byCatF results) pre ([], []) with
  | mk b0 u0 =>
  rw [hacc] at hinv0 he0 hlen0
  simp only [List.nil_append, List.length_nil, Nat.zero_add] at he0 hlen0
  -- he0 : b0 = ext0, hlen0 : b0.length ≤ pre.length * slots.toNat
  obtain ⟨x, hxres, hxbuck⟩ := hex
  have hxbc : x ∈ byCatF results c := by
    unfold byCatF
    rw [List.mem_filter]
    exact ⟨hxres, by simp [hxbuck]⟩
  cases hbc : byCatF results c with
  | nil =>
    rw [hbc] at hxbc
    simp at hxbc
  | cons x1 t1 =>
    have hx1bc : x1 ∈ byCatF results c := by
      rw [hbc]
      exact List.mem_cons_self _ _
    have hx1res : x1 ∈ results := byCatF_subset hx1bc
    have hx1buck : bucketOf x1 = c := bucketOf_of_mem_byCatF hx1bc
    have hx1new : x1.row.url ∉ u0 := by
      intro hin
      have hin2 : x1.row.url ∈ urlsOf b0 := (hinv0.1 _).mp hin
      unfold urlsOf at hin2
      obtain ⟨y, hy, hyurl⟩ := List.mem_map.mp hin2
      rw [he0] at hy
      obtain ⟨cat2, hcat2, hybc⟩ := hs0 y hy
      have hyres : y ∈ results := byCatF_subset hybc
      have hyeq : y = x1 := by
        unfold urlsOf at hurls
        exact List.inj_on_of_nodup_map hurls hyres hx1res hyurl
      have : bucketOf y = cat2 := bucketOf_of_mem_byCatF hybc
      rw [hyeq, hx1buck] at this
      exact hcpre (this ▸ hcat2)
    rw [catLoop_cons, if_neg (by simp), hbc,
      addCapped_cons_new slots x1 t1 b0 u0 hx1new (by linarith)]
    obtain ⟨ext2, he2, hs2⟩ :=
      addCapped_shape slots t1 (b0 ++ [x1]) (x1.row.url :: u0) 1
    obtain ⟨ext3, he3, hs3⟩ := catLoop_shape false slots (byCatF results) post
      (addCapped slots t1 (b0 ++ [x1], x1.row.url :: u0) 1)
    obtain ⟨ext4, he4, hs4⟩ := backfill_shape2 top_k results
      (catLoop false slots (byCatF results) post
        (addCapped slots t1 (b0 ++ [x1], x1.row.url :: u0) 1))
    have htk0 : (0 : Int) ≤ top_k := by
      have h1 : (0 : Int) ≤ (pre.length : Int) * slots := by positivity
      linarith
    rw [pyTake_of_nonneg _ htk0]
    refine ⟨x1, ?_, hx1buck⟩
    apply mem_take_of_extension (b := b0 ++ [x1])
    · refine ⟨ext2 ++ (ext3 ++ ext4), ?_⟩
      rw [he4, he3, he2]
      simp [List.append_assoc]
    · exact List.mem_append_right _ (List.mem_singleton.mpr rfl)
    · have hsl : ((slots.toNat : Int)) = slots :=
        Int.toNat_of_nonneg (by linarith)
      have hcast : ((pre.length * slots.toNat : Nat) : Int)
          = (pre.length : Int) * slots := by
        push_cast
        rw [hsl]
      have hfinal : (b0.length : Int) + 1 ≤ top_k := by
        have h1 : (b0.length : Int) ≤ ((pre.length * slots.toNat : Nat) : Int) := by
          exact_mod_cast hlen0
        rw [hcast] at h1
        linarith
      rw [List.length_append, List.length_singleton]
      omega

/-- C6 (amended): when soft skills are not flagged, at least two distinct
categories are required, candidate URLs are pairwise distinct, and
`top_k ≥ 2 * |required| - 1`, the balanced list contains a candidate whose
primary category (priority `K > P > C > A`) is `c`, for every required `c`
having at least one candidate with primary category `c`.  (Representation
is by primary bucket: a candidate merely carrying the code among its test
types does not count, as the counterexample shows.) -/
theorem balance_primary_category_covered (results : List Cand)
    (required : List PyStr) (top_k : Int) (c : PyStr)
    (hnd : required.Nodup) (hlen : 1 < required.length)
    (hurls : (urlsOf results).Nodup)
    (htk : 2 * (required.length : Int) - 1 ≤ top_k)
    (hc : c ∈ required) (hex : ∃ x ∈ results, bucketOf x = c) :
    ∃ y ∈ balanceByCategory results required false top_k,
      bucketOf y = c := by
  have hcond : ¬(required.length ≤ 1 ∧ (false : Bool) = false) := by
    rintro ⟨h1, h2⟩
    omega
  unfold balanceByCategory
  rw [if_neg hcond]
  have hres : reserveP results required false top_k = ([], []) := by
    unfold reserveP
    rw [if_neg]
    rintro ⟨h1, h2⟩
    simp at h1
  rw [hres]
  have hslots : slotsPerCat required top_k
      ((([] : List Cand), ([] : List PyStr))).1.length
      = max 2 (top_k.fdiv (max 1 (required.length : Int))) := by
    unfold slotsPerCat
    norm_num
  rw [hslots]
  obtain ⟨pre, post, hreq⟩ := List.append_of_mem hc
  have hcpre : c ∉ pre := by
    rw [hreq] at hnd
    have h2 := (List.nodup_append.mp hnd).2.2
    intro hin
    exact h2 hin (List.mem_cons_self c post)
  have hr2 : (2 : Int) ≤ (required.length : Int) := by exact_mod_cast hlen
  have hsched := slots_sched_bound (required.length : Int) top_k hr2 htk
  have hprelen : (pre.length : Int) ≤ (required.length : Int) - 1 := by
    rw [hreq]
    push_cast [List.length_append, List.length_cons]
    linarith
  have hslots2 : (2 : Int)
      ≤ max 2 (top_k.fdiv (max 1 (required.length : Int))) :=
    le_max_left _ _
  have hbound : (pre.length : Int)
      * (max 2 (top_k.fdiv (max 1 (required.length : Int)))) + 1 ≤ top_k := by
    have hmm : (pre.length : Int)
        * (max 2 (top_k.fdiv (max 1 (required.length : Int))))
        ≤ ((required.length : Int) - 1)
        * (max 2 (top_k.fdiv (max 1 (required.length : Int)))) :=
      mul_le_mul_of_nonneg_right hprelen (by linarith)
    linarith
  rw [hreq]
  rw [hreq] at hslots2 hbound
  exact catLoop_backfill_covered results pre post top_k _ c hcpre hurls
    hslots2 hbound hex

/-- C6 witness: a concrete pool with one primary-`K` and one primary-`P`
candidate, required categories `{K, P}` and `top_k = 3`, on which the
amended coverage theorem applies for `P`. -/
theorem balance_primary_category_covered_witness :
    ∃ y ∈ balanceByCategory
        [(⟨⟨pys "a", pys "ua", [], none, false, false, [pys "K"]⟩, 1⟩ : Cand),
         ⟨⟨pys "b", pys "ub", [], none, false, false, [pys "P"]⟩, 0⟩]
        [pys "K", pys "P"] false 3,
      bucketOf y = pys "P" :=
  balance_primary_category_covered _ _ 3 (pys "P") (by decide) (by decide)
    (by decide) (by decide) (by decide)
    ⟨⟨⟨pys "b", pys "ub", [], none, false, false, [pys "P"]⟩, 0⟩,
      by decide, by decide⟩

/-- Python slice `l[j:]` for an arbitrary integer start (a negative start
counts from the end). -/
def pyDropFrom (j : Int) (l : List Cand) : List Cand :=
  if j < 0 then l.drop (l.length - (-j).toNat) else l.drop j.toNat

/-- Insertion step of the stable descending sort by boosted score. -/
def insDesc (c : Cand) : List Cand → List Cand
  | [] => [c]
  | d :: t => if d.score < c.score then c :: d :: t else d :: insDesc c t

/-- Stable descending sort by score (model of
`boosted_scores.sort(key=lambda x: x[1], reverse=True)`). -/
def sortDesc : List Cand → List Cand
  | [] => []
  | c :: t => insDesc c (sortDesc t)

/-- Insertion step of the ascending sort modelling `argsort`. -/
def insAsc (c : Cand) : List Cand → List Cand
  | [] => [c]
  | d :: t => if c.score < d.score then c :: d :: t else d :: insAsc c t

/-- Ascending sort by raw similarity (model of `similarities.argsort()`,
which orders indices by ascending similarity). -/
def sortAsc : List Cand → List Cand
  | [] => []
  | c :: t => insAsc c (sortAsc t)

theorem length_insDesc (c : Cand) (l : List Cand) :
    (insDesc c l).length = l.length + 1 := by
  induction l with
  | nil => rfl
  | cons d t ih =>
    unfold insDesc
    split
    · simp
    · simp [ih]

theorem length_sortDesc (l : List Cand) : (sortDesc l).length = l.length := by
  induction l with
  | nil => rfl
  | cons c t ih =>
    unfold sortDesc
    rw [length_insDesc, ih]
    rfl

/-- The boosted candidate list of `get_recommendations`: each catalog row
paired with its training-boosted similarity score. -/
def boostedCands (df : List Row) (tq : TrainQ) (sims : List ℚ)
    (query : PyStr) : List Cand :=
  (df.zip sims).map (fun p => ⟨p.1, trainingBoost tq query p.1.url p.2⟩)

/-- The top-100 candidate pool (`boosted_scores[:100]` after the
descending sort). -/
def candPool (df : List Row) (tq : TrainQ) (sims : List ℚ)
    (query : PyStr) : List Cand :=
  (sortDesc (boostedCands df tq sims query)).take 100

/-- The duration-filtered candidate list of `get_recommendations`. -/
def candidatesOf (df : List Row) (tq : TrainQ) (sims : List ℚ)
    (query : PyStr) : List Cand :=
  (candPool df tq sims query).filter
    (fun cd => durationKeep (extractFeatures query) cd.row)

/-- The branch choosing between category balancing and plain truncation. -/
def results0Of (df : List Row) (tq : TrainQ) (sims : List ℚ)
    (query : PyStr) (top_k : Int) : List Cand :=
  if 1 < (extractFeatures query).cats.length ∨
      (extractFeatures query).soft = true then
    balanceByCategory (candidatesOf df tq sims query)
      (extractFeatures query).cats (extractFeatures query).soft top_k
  else pyTake top_k (candidatesOf df tq sims query)

/-- The first fallback: refill from the filtered candidates when fewer
than 5 results remain. -/
def results1Of (df : List Row) (tq : TrainQ) (sims : List ℚ)
    (query : PyStr) (top_k : Int) : List Cand :=
  if (results0Of df tq sims query top_k).length < 5 then
    pyTake (max 5 top_k) (candidatesOf df tq sims query)
  else results0Of df tq sims query top_k

/-- The last-resort tier: top `top_k` rows by raw similarity
(`similarities.argsort()[-top_k:][::-1]`). -/
def lastResort (df : List Row) (sims : List ℚ) (top_k : Int) : List Cand :=
  (pyDropFrom (-top_k)
    (sortAsc ((df.zip sims).map (fun p => (⟨p.1, p.2⟩ : Cand))))).reverse

/-- The second fallback cascade of `get_recommendations`. -/
def results2Of (df : List Row) (tq : TrainQ) (sims : List ℚ)
    (query : PyStr) (top_k : Int) : List Cand :=
  if results1Of df tq sims query top_k = [] ∧
      candidatesOf df tq sims query ≠ [] then
    pyTake top_k (candidatesOf df tq sims query)
  else if results1Of df tq sims query top_k = [] then
    lastResort df sims top_k
  else results1Of df tq sims query top_k

/-- Model of `SHLRecommendationEngine.get_recommendations`, parameterized
by the raw cosine-similarity vector of the catalog against the enriched
query (the fitted TF-IDF space is an external collaborator whose output
the engine only reads). -/
def getRecommendations (df : List Row) (tq : TrainQ) (sims : List ℚ)
    (query : PyStr) (top_k : Int) : List Cand :=
  pyTake 10 (results2Of df tq sims query top_k)

/-- C2: the returned list never has more than 10 records, for every
catalog, training index, similarity vector, query and integer `top_k`. -/
theorem getRecommendations_le_ten (df : List Row) (tq : TrainQ)
    (sims : List ℚ) (query : PyStr) (top_k : Int) :
    (getRecommendations df tq sims query top_k).length ≤ 10 := by
  unfold getRecommendations
  rw [pyTake_of_nonneg _ (by norm_num)]
  rw [List.length_take]
  omega

theorem durationKeep_of_none {f : Features} (h : f.durMax = none) (r : Row) :
    durationKeep f r = true := by
  unfold durationKeep
  rw [h]

theorem candidatesOf_of_no_dur (df : List Row) (tq : TrainQ) (sims : List ℚ)
    (query : PyStr) (h : (extractFeatures query).durMax = none) :
    candidatesOf df tq sims query = candPool df tq sims query := by
  unfold candidatesOf
  apply List.filter_eq_self.mpr
  intro a _
  exact durationKeep_of_none h a.row

theorem length_candPool (df : List Row) (tq : TrainQ) (sims : List ℚ)
    (query : PyStr) :
    (candPool df tq sims query).length = min 100 (df.zip sims).length := by
  unfold candPool
  rw [List.length_take, length_sortDesc]
  unfold boostedCands
  rw [List.length_map]

theorem length_pyTake_nonneg (k : Int) (hk : 0 ≤ k) (l : List Cand) :
    (pyTake k l).length = min k.toNat l.length := by
  rw [pyTake_of_nonneg _ hk, List.length_take]

/-- C1 (amended): for a non-empty catalog, a non-empty query from which no
duration limit is parsed, `top_k` in `1..10` and a similarity vector of
catalog size, at least `min(5, catalog_size)` records are returned.
(With a parsed duration limit the refill tier draws from the filtered
pool and the guarantee can fail, as the counterexample shows.) -/
theorem getRecommendations_min_five (df : List Row) (tq : TrainQ)
    (sims : List ℚ) (query : PyStr) (top_k : Int)
    (hdf : df ≠ []) (hq : query ≠ []) (htk1 : 1 ≤ top_k)
    (htk10 : top_k ≤ 10) (hsims : sims.length = df.length)
    (hdur : (extractFeatures query).durMax = none) :
    min 5 df.length ≤ (getRecommendations df tq sims query top_k).length := by
  have hzip : (df.zip sims).length = df.length := by
    rw [List.length_zip, hsims, Nat.min_self]
  have hcand : candidatesOf df tq sims query = candPool df tq sims query :=
    candidatesOf_of_no_dur df tq sims query hdur
  have hclen : (candidatesOf df tq sims query).length = min 100 df.length := by
    rw [hcand, length_candPool, hzip]
  have hn1 : 1 ≤ df.length := List.length_pos.mpr hdf
  have hres1 : min 5 df.length ≤ (results1Of df tq sims query top_k).length := by
    unfold results1Of
    split
    · rw [length_pyTake_nonneg _ (by omega) _, hclen]
      have h5 : (5 : Int) ≤ max 5 top_k := le_max_left _ _
      have h5n : 5 ≤ (max 5 top_k).toNat := by omega
      omega
    · rename_i h
      omega
  have hne : results1Of df tq sims query top_k ≠ [] := by
    intro h0
    rw [h0] at hres1
    rw [List.length_nil] at hres1
    omega
  have hres2 : results2Of df tq sims query top_k
      = results1Of df tq sims query top_k := by
    unfold results2Of
    rw [if_neg (by rintro ⟨h0, h1⟩; exact hne h0), if_neg hne]
  unfold getRecommendations
  rw [hres2, pyTake_of_nonneg _ (by norm_num), List.length_take]
  omega

/-- A catalog row declaring a 60-minute duration, used by the duration
counterexample. -/
def durRow (nm u : PyStr) : Row := ⟨nm, u, [], some 60, false, false, []⟩

/-- A five-row catalog whose every row declares 60 minutes. -/
def dfDur : List Row :=
  [durRow (pys "a") (pys "u1"), durRow (pys "b") (pys "u2"),
   durRow (pys "c") (pys "u3"), durRow (pys "d") (pys "u4"),
   durRow (pys "e") (pys "u5")]

/-- C1 counterexample: on a five-row catalog whose durations all exceed
the tolerance band of the parsed limit, the query `"30 min"` with
`top_k = 1` empties the filtered pool, and the last-resort tier returns
only `top_k = 1` record, fewer than `min(5, catalog_size) = 5`. -/
theorem getRecommendations_starved_by_duration :
    dfDur ≠ [] ∧ pys "30 min" ≠ ([] : List Nat) ∧
      (1 : Int) ≤ 1 ∧ (1 : Int) ≤ 10 ∧
      ([0, 0, 0, 0, 0] : List ℚ).length = dfDur.length ∧
      ¬(min 5 dfDur.length ≤
        (getRecommendations dfDur [] [0, 0, 0, 0, 0]
          (pys "30 min") 1).length) := by
  with_unfolding_all decide

/-- C1 witness: a one-row catalog and the duration-free query `"java"`,
on which the amended guarantee theorem applies. -/
theorem getRecommendations_min_five_witness :
    min 5 ([(⟨pys "a", pys "u1", [], none, false, false, []⟩ : Row)]).length ≤
      (getRecommendations [⟨pys "a", pys "u1", [], none, false, false, []⟩]
        [] [0] (pys "java") 1).length :=
  getRecommendations_min_five _ _ _ _ _ (by decide) (by decide) (by decide)
    (by decide) (by decide) (by decide)

/-- Python `defaultdict(set)` subscript on the training index: returns
the stored value when the key is present and otherwise inserts (and
returns) an empty default entry — the only operation through which
`get_recommendations` could mutate engine state. -/
def ddGet (tq : TrainQ) (k : PyStr) : List PyStr × TrainQ :=
  match lookupTQ tq k with
  | some v => (v, tq)
  | none => ([], tq ++ [(k, [])])

/-- The membership test `query_lower in self.train_queries` (never
mutates a defaultdict). -/
def hasKeyTQ (tq : TrainQ) (k : PyStr) : Bool :=
  tq.any (fun e => e.1 == k)

/-- State-threaded model of `_calculate_training_boost`: the defaultdict
subscript is only reached behind the membership guard, exactly as in the
source. -/
def trainingBoostSt (tq : TrainQ) (query url : PyStr) (base : ℚ) :
    ℚ × TrainQ :=
  if hasKeyTQ tq (pyStrip (pyLower query)) then
    match ddGet tq (pyStrip (pyLower query)) with
    | (urls, tq1) =>
      if urlMatches urls (normQ url) then (base * 1000, tq1)
      else if 3/10 <
          bestSimAux tq1 (wordSet (pyStrip (pyLower query))) (normQ url) then
        (base * (1 +
          bestSimAux tq1 (wordSet (pyStrip (pyLower query))) (normQ url)
            * 100), tq1)
      else (base, tq1)
  else if 3/10 <
      bestSimAux tq (wordSet (pyStrip (pyLower query))) (normQ url) then
    (base * (1 +
      bestSimAux tq (wordSet (pyStrip (pyLower query))) (normQ url) * 100),
      tq)
  else (base, tq)

/-- State-threaded scoring loop of `get_recommendations`: every catalog
row is boosted in sequence against the (potentially mutable) training
index. -/
def boostAllSt (query : PyStr) : List (Row × ℚ) → TrainQ →
    List Cand × TrainQ
  | [], tq => ([], tq)
  | p :: t, tq =>
    ((⟨p.1, (trainingBoostSt tq query p.1.url p.2).1⟩ : Cand) ::
        (boostAllSt query t (trainingBoostSt tq query p.1.url p.2).2).1,
      (boostAllSt query t (trainingBoostSt tq query p.1.url p.2).2).2)

theorem hasKeyTQ_lookup (tq : TrainQ) (k : PyStr) :
    hasKeyTQ tq k = true ↔ ∃ v, lookupTQ tq k = some v := by
  unfold hasKeyTQ lookupTQ
  rw [List.any_eq_true]
  constructor
  · rintro ⟨e, he, hek⟩
    have : (tq.find? (fun e => e.1 == k)).isSome = true :=
      List.find?_isSome.mpr ⟨e, he, hek⟩
    cases hf : tq.find? (fun e => e.1 == k) with
    | none =>
      rw [hf] at this
      simp at this
    | some e2 => exact ⟨e2.2, rfl⟩
  · rintro ⟨v, hv⟩
    cases hf : tq.find? (fun e => e.1 == k) with
    | none =>
      rw [hf] at hv
      simp at hv
    | some e2 =>
      have hmem : e2 ∈ tq := List.mem_of_find?_eq_some hf
      have hpred := List.find?_some hf
      exact ⟨e2, hmem, hpred⟩

theorem trainingBoostSt_eq (tq : TrainQ) (query url : PyStr) (b : ℚ) :
    trainingBoostSt tq query url b = (trainingBoost tq query url b, tq) := by
  unfold trainingBoostSt trainingBoost codeExact ddGet
  by_cases hk : hasKeyTQ tq (pyStrip (pyLower query)) = true
  · rw [if_pos hk]
    obtain ⟨v, hv⟩ := (hasKeyTQ_lookup tq _).mp hk
    rw [hv]
    by_cases hm : urlMatches v (normQ url) = true
    · simp [hm]
    · simp only [Bool.not_eq_true] at hm
      by_cases hb : 3/10 <
          bestSimAux tq (wordSet (pyStrip (pyLower query))) (normQ url)
      · simp [hm, hb]
      · simp [hm, hb]
  · rw [if_neg hk]
    have hnone : lookupTQ tq (pyStrip (pyLower query)) = none := by
      cases h : lookupTQ tq (pyStrip (pyLower query)) with
      | none => rfl
      | some v => exact absurd ((hasKeyTQ_lookup tq _).mpr ⟨v, h⟩) hk
    rw [hnone]
    by_cases hb : 3/10 <
        bestSimAux tq (wordSet (pyStrip (pyLower query))) (normQ url)
    · simp [hb]
    · simp [hb]

theorem boostAllSt_eq (query : PyStr) :
    ∀ (l : List (Row × ℚ)) (tq : TrainQ),
      boostAllSt query l tq
        = (l.map (fun p =>
            (⟨p.1, trainingBoost tq query p.1.url p.2⟩ : Cand)), tq)
  | [], tq => rfl
  | p :: t, tq => by
    unfold boostAllSt
    rw [trainingBoostSt_eq]
    dsimp only
    rw [boostAllSt_eq query t tq]
    rfl

/-- C9: the scoring loop — the only step of `get_recommendations` that
touches the engine's mutable training index — returns the index
unchanged, its scored output equals the pure boosted candidate list, and
a second call made with the returned state produces an identical result.
The catalog rows, fitted vectorizer and term-document matrix enter only
as read-only parameters (`df`, `sims`). -/
theorem getRecommendations_stateless (df : List Row) (tq : TrainQ)
    (sims : List ℚ) (query : PyStr) (top_k : Int) :
    (boostAllSt query (df.zip sims) tq).2 = tq ∧
      (boostAllSt query (df.zip sims) tq).1 = boostedCands df tq sims query ∧
      getRecommendations df (boostAllSt query (df.zip sims) tq).2 sims
          query top_k
        = getRecommendations df tq sims query top_k := by
  rw [boostAllSt_eq]
  exact ⟨rfl, rfl, rfl⟩

/-- A raw `test_type` field as read from the scraper's JSON: absent
(`None`), a single string, a list of strings, or a truthy value of
another type. -/
inductive TTRaw where
  | absent
  | ofStr (s : PyStr)
  | ofList (l : List PyStr)
  | otherTruthy
deriving DecidableEq

/-- Python truthiness test `if not test_types`. -/
def ttFalsy : TTRaw → Bool
  | .absent => true
  | .ofStr s => s.isEmpty
  | .ofList l => l.isEmpty
  | .otherTruthy => false

/-- The valid single-letter codes of `normalize_test_types`. -/
def validCodes : List PyStr :=
  [pys "A", pys "B", pys "C", pys "D", pys "E", pys "K", pys "P", pys "S"]

/-- The readable-name to code mapping of `normalize_test_types`, in the
source's insertion order (the loop breaks at the first match). -/
def codeMapping : List (PyStr × PyStr) :=
  [(pys "technical", pys "K"), (pys "knowledge", pys "K"),
   (pys "skills", pys "K"), (pys "cognitive", pys "C"),
   (pys "ability", pys "A"), (pys "aptitude", pys "A"),
   (pys "personality", pys "P"), (pys "behavior", pys "P"),
   (pys "behavioural", pys "P"), (pys "development", pys "D"),
   (pys "exercise", pys "E"), (pys "simulation", pys "S"),
   (pys "biodata", pys "B"), (pys "situational", pys "B")]

/-- The code recognized in one raw entry: the entry itself if it is a
valid code after strip/upper-case, else the code of the first mapped
keyword contained in the lowered entry. -/
def codesOfElem (t : PyStr) : Option PyStr :=
  if pyUpper (pyStrip t) ∈ validCodes then some (pyUpper (pyStrip t))
  else (codeMapping.find? (fun kv => containsPy (pyLower t) kv.1)).map
    Prod.snd

/-- The deduplicated codes collected over the entries (the Python
`result_codes` set, in first-occurrence order before sorting). -/
def collectCodes (l : List PyStr) : List PyStr :=
  l.foldl (fun acc t =>
    match codesOfElem t with
    | some c => if c ∈ acc then acc else acc ++ [c]
    | none => acc) []

/-- Lexicographic order on code strings, for `sorted(...)`. -/
def lexLe : PyStr → PyStr → Bool
  | [], _ => true
  | _ :: _, [] => false
  | c :: s, d :: t => if c < d then true else if d < c then false else lexLe s t

/-- Insertion step of the lexicographic sort. -/
def insLex (x : PyStr) : List PyStr → List PyStr
  | [] => [x]
  | y :: t => if lexLe x y then x :: y :: t else y :: insLex x t

/-- Model of Python `sorted` on the collected code list. -/
def sortLex : List PyStr → List PyStr
  | [] => []
  | x :: t => insLex x (sortLex t)

/-- Model of `preprocess_final.normalize_test_types`. -/
def normalizeTestTypes (x : TTRaw) : List PyStr :=
  if ttFalsy x then [pys "General"]
  else
    match x with
    | .ofStr s =>
      if collectCodes [s] = [] then [pys "General"]
      else sortLex (collectCodes [s])
    | .ofList l =>
      if collectCodes l = [] then [pys "General"]
      else sortLex (collectCodes l)
    | _ => [pys "General"]

/-- The recognizable codes of a raw field, per the claim's wording. -/
def recognizedCodes : TTRaw → List PyStr
  | .ofStr s => collectCodes [s]
  | .ofList l => collectCodes l
  | _ => []

/-- The engine-side `_load_data` treatment of the stored `test_type`
field (`x if isinstance(x, list) else []`). -/
inductive TTJson where
  | jlist (l : List PyStr)
  | jother

/-- Model of the `_load_data` lambda on the `test_type` column. -/
def loadTestType : TTJson → List PyStr
  | .jlist l => l
  | .jother => []

theorem length_insLex (x : PyStr) (l : List PyStr) :
    (insLex x l).length = l.length + 1 := by
  induction l with
  | nil => rfl
  | cons y t ih =>
    unfold insLex
    split
    · simp
    · simp [ih]

theorem length_sortLex (l : List PyStr) : (sortLex l).length = l.length := by
  induction l with
  | nil => rfl
  | cons x t ih =>
    unfold sortLex
    rw [length_insLex, ih]
    rfl

theorem sortLex_ne_nil {l : List PyStr} (h : ¬(l = [])) : sortLex l ≠ [] := by
  intro h0
  have hl := congrArg List.length h0
  rw [length_sortLex] at hl
  simp at hl
  exact h hl

/-- C8: the stored `test_types` of every catalog record is non-empty, and
whenever the raw field is absent, empty, or yields no recognizable code
or name, it is exactly `['General']`; the engine's loader keeps the
preprocessed list unchanged. -/
theorem testTypes_never_empty (x : TTRaw) :
    loadTestType (TTJson.jlist (normalizeTestTypes x))
        = normalizeTestTypes x ∧
      normalizeTestTypes x ≠ [] ∧
      (recognizedCodes x = [] → normalizeTestTypes x = [pys "General"]) := by
  refine ⟨rfl, ?_, ?_⟩
  · cases x with
    | absent => simp [normalizeTestTypes, ttFalsy]
    | otherTruthy => simp [normalizeTestTypes, ttFalsy]
    | ofStr s =>
      unfold normalizeTestTypes
      split
      · simp
      · show (if collectCodes [s] = [] then [pys "General"]
            else sortLex (collectCodes [s])) ≠ []
        split
        · simp
        · rename_i hc
          exact sortLex_ne_nil hc
    | ofList l =>
      unfold normalizeTestTypes
      split
      · simp
      · show (if collectCodes l = [] then [pys "General"]
            else sortLex (collectCodes l)) ≠ []
        split
        · simp
        · rename_i hc
          exact sortLex_ne_nil hc
  · intro h
    cases x with
    | absent => rfl
    | otherTruthy => rfl
    | ofStr s =>
      unfold normalizeTestTypes
      split
      · rfl
      · unfold recognizedCodes at h
        show (if collectCodes [s] = [] then [pys "General"]
            else sortLex (collectCodes [s])) = [pys "General"]
        rw [if_pos h]
    | ofList l =>
      unfold normalizeTestTypes
      split
      · rfl
      · unfold recognizedCodes at h
        show (if collectCodes l = [] then [pys "General"]
            else sortLex (collectCodes l)) = [pys "General"]
        rw [if_pos h]

/-- C8 witness: the absent raw field has no recognizable code, and the
stored list is exactly `['General']` (in particular non-empty). -/
theorem testTypes_never_empty_witness :
    recognizedCodes TTRaw.absent = [] ∧
      normalizeTestTypes TTRaw.absent ≠ [] ∧
      normalizeTestTypes TTRaw.absent = [pys "General"] :=
  ⟨by decide, (testTypes_never_empty TTRaw.absent).2.1,
    (testTypes_never_empty TTRaw.absent).2.2 (by decide)⟩
